import Mathlib

/-!
Verification development for the parel command runner (src/main.rs).

Strings are modelled as lists of bytes (List Nat); Rust str slicing in the
source is byte-based, so this keeps the embedding faithful, including the
panic that one-byte slicing raises on a UTF-8 multi-byte character.
A Rust panic is modelled as the value none of an Option result.
-/

namespace Parel

/-- Outcome of running a rendered command through the shell, as observed by
execute_command in src/main.rs: either the process ran and produced an exit
status with captured stdout and stderr bytes, or it could not be spawned. -/
inductive ExecOutcome where
  | ok (status : Nat) (stdout stderr : List Nat)
  | spawnErr (err : List Nat)
deriving DecidableEq

/-- Observable output emitted by execute_command: a verbatim stdout print, an
index-tagged stderr print, or the spawn-failure warning that names the
command and the underlying cause. -/
inductive Event where
  | out (stdout : List Nat)
  | errTagged (idx : Nat) (stderr : List Nat)
  | warn (cmd err : List Nat)
deriving DecidableEq

/-- Model of fn execute_command (src/main.rs lines 15-37).  The subprocess
outcome is an input of the model; the function returns the list of prints the
Rust code performs.  On success stdout is printed unless no_output is set; on
a non-zero exit the stderr is printed tagged with the job index unless
no_output is set; on a spawn failure a warning naming the command and the
cause is printed unconditionally. -/
def execute_command (command : List Nat) (command_idx : Nat) (no_output : Bool)
    (outcome : ExecOutcome) : List Event :=
  match outcome with
  | .ok status stdout stderr =>
      if status = 0 then
        if no_output then [] else [Event.out stdout]
      else
        if no_output then [] else [Event.errTagged command_idx stderr]
  | .spawnErr err => [Event.warn command err]

/-- Byte-level version of char::is_ascii_alphanumeric used by
fn is_alphanumeric (src/main.rs lines 11-13). -/
def is_ascii_alphanum (b : Nat) : Bool :=
  (48 ≤ b && b ≤ 57) || (65 ≤ b && b ≤ 90) || (97 ≤ b && b ≤ 122)

/-- Model of fn is_alphanumeric (src/main.rs lines 11-13). -/
def is_alphanumeric (input : List Nat) : Bool :=
  input.all is_ascii_alphanum

/-- Rust str::contains restricted to a literal pattern: true when pat occurs
as a contiguous substring of l. -/
def containsSub (l pat : List Nat) : Bool :=
  match l with
  | [] => pat.isEmpty
  | a :: rest => pat.isPrefixOf (a :: rest) || containsSub rest pat

/-- One iteration of the per-file validation loop in main (src/main.rs lines
140-172), for a file whose identifier has already been parsed out of the
path:identifier argument.  The checks are, in source order: the identifier is
non-empty, it is ASCII alphanumeric, no previously registered identifier
equals it and no previously registered identifier equals the index-identifier
(note: the source compares the earlier identifiers, not the new one, against
index), the command contains the index-identifier, and the command contains
the new identifier.  The filesystem existence check on the path is external
input/output and is elided.  The function returns true when the program does
not abort on this file. -/
def check_one (command index : List Nat) (registered : List (List Nat))
    (identifier : List Nat) : Bool :=
  !identifier.isEmpty &&
  is_alphanumeric identifier &&
  !(registered.any (fun f => f == identifier || f == index)) &&
  containsSub command index &&
  containsSub command identifier

/-- The whole per-file validation loop of main over the parsed identifiers, in
order; registered accumulates the identifiers pushed so far.  Returns true
when every file is accepted and the run proceeds to loading and dispatch. -/
def validate_files (command index : List Nat) (registered : List (List Nat)) :
    List (List Nat) → Bool
  | [] => true
  | identifier :: rest =>
      check_one command index registered identifier &&
      validate_files command index (registered ++ [identifier]) rest

/-- Decimal digit bytes of a natural number, modelling usize::to_string in
fn gen_command (src/main.rs line 75). -/
def natDigits (n : Nat) : List Nat :=
  if h : n < 10 then [48 + n]
  else natDigits (n / 10) ++ [48 + n % 10]
decreasing_by
  exact Nat.div_lt_self (by omega) (by omega)

/-- Model of fn product (src/main.rs lines 94-102): mixed-radix decomposition
of nth over the wordlist sizes, first size varying fastest.  Rust integer
modulo and division by zero panic, which is modelled as none: the result is
none exactly when some size is zero. -/
def product (nth : Nat) : List Nat → Option (List Nat)
  | [] => some []
  | s :: rest =>
      if s = 0 then none
      else
        match product (nth / s) rest with
        | none => none
        | some out => some ((nth % s) :: out)

/-- Value of product with the division-by-zero panic ignored (Lean natural
division by zero yields zero); agrees with product whenever every size is
positive. -/
def productT (nth : Nat) : List Nat → List Nat
  | [] => []
  | s :: rest => (nth % s) :: productT (nth / s) rest

/-- Product of the first k sizes, the radix weight of position k in the
mixed-radix decomposition. -/
def prefixProd : List Nat → Nat → Nat
  | _, 0 => 1
  | [], _ + 1 => 1
  | s :: ss, k + 1 => s * prefixProd ss k

/-- Mixed-radix recomposition, the inverse of productT: offsets are combined
with the sizes as radices, first size least significant. -/
def encodeMR : List Nat → List Nat → Nat
  | o :: os, s :: ss => o + s * encodeMR os ss
  | _, _ => 0

/-- The inner wordlist-identifier loop of fn precompute_template (src/main.rs
lines 50-59): scan the registered identifiers in order, return the 1-based
tag of the first one that is a prefix of the remaining command together with
the remaining command after it, or none when no identifier matches. -/
def matchWordlist (rest : List Nat) : List (List Nat) → Nat → Option (Nat × List Nat)
  | [], _ => none
  | ident :: more, j =>
      if ident.isPrefixOf rest then some (j + 1, rest.drop ident.length)
      else matchWordlist rest more (j + 1)

/-- Loop body of fn precompute_template (src/main.rs lines 39-68), fuel
recursive.  Per iteration the source first tests the index-identifier (when
non-empty) as a prefix, consuming it and flushing the pending literal as a
tag-0 segment; then, without returning to the loop head, it tests the
wordlist identifiers in registration order at the now current position; when
nothing matched it copies one byte of the command into the pending literal
via the slice command[i..i+1], which panics when that byte starts a
multi-byte UTF-8 character (byte value 128 or above), modelled as none.
Exhausted fuel (only reachable when some identifier is empty, where the
source loops forever) is also none.  After the scan a final tag-0 segment
carries the trailing literal. -/
def precompute_go (index : List Nat) (idents : List (List Nat)) :
    Nat → List Nat → List Nat → List (Nat × List Nat) → Option (List (Nat × List Nat))
  | _, [], tmp, acc => some (acc ++ [(0, tmp)])
  | 0, _ :: _, _, _ => none
  | fuel + 1, b :: bs, tmp, acc =>
      if (!index.isEmpty) && index.isPrefixOf (b :: bs) then
        let rest2 := (b :: bs).drop index.length
        let acc2 := acc ++ [(0, tmp)]
        match matchWordlist rest2 idents 0 with
        | some (tag, rest3) => precompute_go index idents fuel rest3 [] (acc2 ++ [(tag, [])])
        | none => precompute_go index idents fuel rest2 [] acc2
      else
        match matchWordlist (b :: bs) idents 0 with
        | some (tag, rest3) => precompute_go index idents fuel rest3 [] (acc ++ [(tag, tmp)])
        | none =>
            if b < 128 then precompute_go index idents fuel bs (tmp ++ [b]) acc
            else none

/-- Model of fn precompute_template (src/main.rs lines 39-68).  The fuel
bound command.length + 1 is never reached when every identifier is
non-empty, since each iteration then consumes at least one byte. -/
def precompute_template (command index : List Nat) (idents : List (List Nat)) :
    Option (List (Nat × List Nat)) :=
  precompute_go index idents (command.length + 1) command [] []

/-- Matching loop as the specification describes it: at every scan position
the index-identifier (when configured) is tested first, then the wordlist
identifiers in registration order, the first match wins, and otherwise one
byte is copied to the pending literal.  This differs from precompute_go only
in returning to the loop head right after an index-identifier match instead
of testing the wordlist identifiers at the advanced position within the same
iteration. -/
def precompute_spec_go (index : List Nat) (idents : List (List Nat)) :
    Nat → List Nat → List Nat → List (Nat × List Nat) → Option (List (Nat × List Nat))
  | _, [], tmp, acc => some (acc ++ [(0, tmp)])
  | 0, _ :: _, _, _ => none
  | fuel + 1, b :: bs, tmp, acc =>
      if (!index.isEmpty) && index.isPrefixOf (b :: bs) then
        precompute_spec_go index idents fuel ((b :: bs).drop index.length) [] (acc ++ [(0, tmp)])
      else
        match matchWordlist (b :: bs) idents 0 with
        | some (tag, rest3) => precompute_spec_go index idents fuel rest3 [] (acc ++ [(tag, tmp)])
        | none =>
            if b < 128 then precompute_spec_go index idents fuel bs (tmp ++ [b]) acc
            else none

/-- Wrapper of precompute_spec_go with the same fuel as precompute_template,
formalising the matching precedence the specification states. -/
def precompute_template_spec (command index : List Nat) (idents : List (List Nat)) :
    Option (List (Nat × List Nat)) :=
  precompute_spec_go index idents (command.length + 1) command [] []

/-- Rendering of one non-final template segment in fn gen_command
(src/main.rs lines 72-81): the literal prefix followed by the decimal index
for a tag-0 segment, or the selected wordlist value for a tag k+1 segment.
Out-of-range indexing, a Rust panic, is modelled as none. -/
def render_seg (idx : Nat) (values : List (List (List Nat))) (offs : List Nat) :
    Nat × List Nat → Option (List Nat)
  | (0, lit) => some (lit ++ natDigits idx)
  | (t + 1, lit) =>
      match values.get? t with
      | none => none
      | some vals =>
          match offs.get? t with
          | none => none
          | some o =>
              match vals.get? o with
              | none => none
              | some v => some (lit ++ v)

/-- Rendering of a list of non-final segments in order, concatenated. -/
def render_segs (idx : Nat) (values : List (List (List Nat))) (offs : List Nat) :
    List (Nat × List Nat) → Option (List Nat)
  | [] => some []
  | seg :: rest =>
      match render_seg idx values offs seg with
      | none => none
      | some s =>
          match render_segs idx values offs rest with
          | none => none
          | some r => some (s ++ r)

/-- Model of fn gen_command (src/main.rs lines 69-83): decompose the index
over the wordlist lengths, render every segment but the last with its
placeholder, then append the final segment's trailing literal.  The slicing
template[..template.len()-1] on an empty template, and any panic inside
product or the indexing, are modelled as none. -/
def gen_command (template : List (Nat × List Nat)) (idx : Nat)
    (values : List (List (List Nat))) (lengths : List Nat) : Option (List Nat) :=
  match product idx lengths with
  | none => none
  | some offs =>
      match template.getLast? with
      | none => none
      | some last =>
          match render_segs idx values offs template.dropLast with
          | none => none
          | some r => some (r ++ last.2)

/-- The claim operation of the job dispatcher (src/main.rs lines 235-244):
under the next_job mutex a worker reads the counter and, unless it exceeds
total_words, increments the counter and takes the read value as its job.
Note the source bound check is a strict greater-than against total_words, so
the value total_words itself is still claimed. -/
def claimOp (total c : Nat) : Option (Nat × Nat) :=
  if total < c then none else some (c, c + 1)

/-- The sequence of indices handed out by successive claim operations
starting from counter value c.  The mutex serialises the claims, so this
sequence is the same for every worker count and interleaving; fuel bounds
the number of iterations and is irrelevant once it exceeds the number of
successful claims. -/
def runClaims (total : Nat) : Nat → Nat → List Nat
  | _, 0 => []
  | c, fuel + 1 =>
      match claimOp total c with
      | none => []
      | some (j, c2) => j :: runClaims total c2 fuel

/-- The worker loop of main (src/main.rs lines 233-252) in claim order:
claim a job, render it with gen_command, run it with execute_command, and
repeat.  The subprocess outcome of job i is the environment input outcome i.
A rendering panic (gen_command none) kills the worker thread, ending the
list.  The mutex serialises claims and per-job execution is independent, so
this single sequence captures the claims and executions of the whole pool. -/
def worker_loop (total : Nat) (template : List (Nat × List Nat))
    (values : List (List (List Nat))) (lengths : List Nat)
    (outcome : Nat → ExecOutcome) (silent : Bool) : Nat → Nat → List (Nat × List Event)
  | _, 0 => []
  | c, fuel + 1 =>
      if total < c then []
      else
        match gen_command template c values lengths with
        | none => []
        | some cmd =>
            (c, execute_command cmd c silent (outcome c)) ::
              worker_loop total template values lengths outcome silent (c + 1) fuel

/-- Result of a run of main after configuration is loaded: the show branch
printed one rendered command, or aborted on an out-of-range show value
before dispatch, or panicked while rendering, or the worker pool ran the
jobs and main fell off the end. -/
inductive MainResult where
  | shown (printed : List Nat)
  | confErr
  | panicked
  | ran (jobs : List (Nat × List Event))
deriving DecidableEq

/-- Model of the tail of main (src/main.rs lines 196-261), after wordlists
are loaded and the template compiled.  With a show argument (lines 196-204)
the program exits with status 1 when the value is not below total_words, and
otherwise prints the rendered command for that index and exits with status 0
before any worker is spawned; a rendering panic aborts with the Rust panic
exit status 101.  Without a show argument the worker pool runs every job,
the join results are discarded, and main returns normally, so the exit
status is 0 regardless of the per-job outcomes. -/
def main_model (showArg : Option Nat) (total : Nat) (template : List (Nat × List Nat))
    (values : List (List (List Nat))) (lengths : List Nat)
    (outcome : Nat → ExecOutcome) (silent : Bool) (fuel : Nat) : MainResult × Nat :=
  match showArg with
  | some k =>
      if total ≤ k then (.confErr, 1)
      else
        match gen_command template k values lengths with
        | none => (.panicked, 101)
        | some c => (.shown c, 0)
  | none => (.ran (worker_loop total template values lengths outcome silent 0 fuel), 0)

theorem productT_length (sizes : List Nat) (n : Nat) :
    (productT n sizes).length = sizes.length := by
  induction sizes generalizing n with
  | nil => rfl
  | cons s ss ih => simp [productT, ih]

theorem product_eq_productT (sizes : List Nat) (n : Nat) (h : ∀ s ∈ sizes, 1 ≤ s) :
    product n sizes = some (productT n sizes) := by
  induction sizes generalizing n with
  | nil => rfl
  | cons s ss ih =>
      have hs : ¬ s = 0 := by have := h s (by simp); omega
      simp [product, productT, hs, ih (n / s) (fun x hx => h x (by simp [hx]))]

theorem product_eq_none_of_zero (sizes : List Nat) (n : Nat) (h : 0 ∈ sizes) :
    product n sizes = none := by
  induction sizes generalizing n with
  | nil => simp at h
  | cons s ss ih =>
      by_cases hs : s = 0
      · simp [product, hs]
      · have hss : 0 ∈ ss := by
          rcases List.mem_cons.mp h with h1 | h1
          · omega
          · exact h1
        simp [product, hs, ih (n / s) hss]

theorem productT_getD (sizes : List Nat) (k n : Nat) (hk : k < sizes.length) :
    (productT n sizes).getD k 0 = (n / prefixProd sizes k) % sizes.getD k 1 := by
  induction sizes generalizing k n with
  | nil => simp at hk
  | cons s ss ih =>
      cases k with
      | zero => simp [productT, prefixProd]
      | succ k =>
          have hk2 : k < ss.length := by simpa using hk
          show ((n % s) :: productT (n / s) ss).getD (k + 1) 0 = _
          rw [List.getD_cons_succ, ih k (n / s) hk2, Nat.div_div_eq_div_mul]
          rfl

theorem productT_getD_lt (sizes : List Nat) (k n : Nat) (h : ∀ s ∈ sizes, 1 ≤ s)
    (hk : k < sizes.length) :
    (productT n sizes).getD k 0 < sizes.getD k 1 := by
  induction sizes generalizing k n with
  | nil => simp at hk
  | cons s ss ih =>
      cases k with
      | zero =>
          have hs : 1 ≤ s := h s (by simp)
          simpa [productT] using Nat.mod_lt n (by omega)
      | succ k =>
          have hk2 : k < ss.length := by simpa using hk
          simpa [productT] using ih k (n / s) (fun x hx => h x (by simp [hx])) hk2

theorem encodeMR_productT (sizes : List Nat) (n : Nat) (h : ∀ s ∈ sizes, 1 ≤ s)
    (hn : n < sizes.prod) :
    encodeMR (productT n sizes) sizes = n := by
  induction sizes generalizing n with
  | nil =>
      simp [List.prod_nil] at hn
      simp [productT, encodeMR]
      omega
  | cons s ss ih =>
      have hs : 1 ≤ s := h s (by simp)
      have hdiv : n / s < ss.prod := by
        rw [Nat.div_lt_iff_lt_mul (by omega)]
        calc n < (s :: ss).prod := hn
          _ = ss.prod * s := by rw [List.prod_cons]; ring
      have hrec := ih (n / s) (fun x hx => h x (by simp [hx])) hdiv
      simp [productT, encodeMR, hrec, Nat.mod_add_div]

theorem productT_encodeMR (sizes : List Nat) (offs : List Nat)
    (hlen : offs.length = sizes.length)
    (hlt : ∀ k, k < sizes.length → offs.getD k 0 < sizes.getD k 1) :
    productT (encodeMR offs sizes) sizes = offs := by
  induction sizes generalizing offs with
  | nil =>
      have : offs = [] := List.eq_nil_of_length_eq_zero (by simpa using hlen)
      simp [this, productT]
  | cons s ss ih =>
      cases offs with
      | nil => simp at hlen
      | cons o os =>
          have h0 : o < s := by simpa using hlt 0 (by simp)
          have hs : 0 < s := by omega
          have hmod : (o + s * encodeMR os ss) % s = o := by
            rw [Nat.add_mul_mod_self_left, Nat.mod_eq_of_lt h0]
          have hdiv : (o + s * encodeMR os ss) / s = encodeMR os ss := by
            rw [Nat.add_mul_div_left _ _ hs, Nat.div_eq_of_lt h0]; omega
          have hrec := ih os (by simpa using hlen)
            (fun k hk => by simpa using hlt (k + 1) (by simpa using hk))
          simp [encodeMR, productT, hmod, hdiv, hrec]

theorem encodeMR_lt (sizes : List Nat) (offs : List Nat)
    (hlen : offs.length = sizes.length)
    (hlt : ∀ k, k < sizes.length → offs.getD k 0 < sizes.getD k 1) :
    encodeMR offs sizes < sizes.prod := by
  induction sizes generalizing offs with
  | nil =>
      have : offs = [] := List.eq_nil_of_length_eq_zero (by simpa using hlen)
      simp [this, encodeMR]
  | cons s ss ih =>
      cases offs with
      | nil => simp at hlen
      | cons o os =>
          have h0 : o < s := by simpa using hlt 0 (by simp)
          have hrec := ih os (by simpa using hlen)
            (fun k hk => by simpa using hlt (k + 1) (by simpa using hk))
          have hstep : o + s * encodeMR os ss < s * ss.prod := by
            calc o + s * encodeMR os ss < s * (encodeMR os ss + 1) := by
                  rw [Nat.mul_succ]; omega
              _ ≤ s * ss.prod := Nat.mul_le_mul_left s hrec
          simpa [encodeMR, List.prod_cons] using hstep

theorem get_some_of_lt {α : Type} (l : List α) (n : Nat) (h : n < l.length) :
    ∃ a, l[n]? = some a := ⟨l[n], List.getElem?_eq_getElem h⟩

theorem getD_of_get_some {α : Type} (l : List α) (n : Nat) (a d : α)
    (h : l[n]? = some a) : l.getD n d = a := by
  induction l generalizing n with
  | nil => simp at h
  | cons x xs ih =>
      cases n with
      | zero => simp at h; simp [h]
      | succ n => simpa using ih n (by simpa using h)

theorem mem_of_mem_dropLast {α : Type} {a : α} :
    ∀ {l : List α}, a ∈ l.dropLast → a ∈ l := by
  intro l
  induction l with
  | nil => intro h; simp at h
  | cons x xs ih =>
      intro h
      cases xs with
      | nil => simp at h
      | cons y ys =>
          rcases List.mem_cons.mp h with h1 | h1
        
          · simp [h1]
          · exact List.mem_cons.mpr (Or.inr (ih h1))

theorem getLast_some_of_ne_nil {α : Type} (l : List α) (h : l ≠ []) :
    ∃ a, l.getLast? = some a := by
  induction l with
  | nil => exact absurd rfl h
  | cons x xs ih =>
      cases xs with
      | nil => exact ⟨x, rfl⟩
      | cons y ys =>
          obtain ⟨a, ha⟩ := ih (by simp)
          exact ⟨a, by rw [List.getLast?_cons_cons, ha]⟩

theorem pos_of_lt_prod (lens : List Nat) (k : Nat) (h : k < lens.prod) :
    ∀ s ∈ lens, 1 ≤ s := by
  intro s hs
  by_contra hcon
  have hz : s = 0 := by omega
  have : lens.prod = 0 := List.prod_eq_zero (hz ▸ hs)
  omega

theorem render_segs_isSome (idx : Nat) (values : List (List (List Nat))) (offs : List Nat)
    (body : List (Nat × List Nat))
    (htags : ∀ seg ∈ body, seg.1 ≤ values.length)
    (hlen : offs.length = values.length)
    (hbound : ∀ t, t < values.length → ∀ vals, values[t]? = some vals →
        offs.getD t 0 < vals.length) :
    ∃ r, render_segs idx values offs body = some r := by
  induction body with
  | nil => exact ⟨[], rfl⟩
  | cons seg rest ih =>
      obtain ⟨r, hr⟩ := ih (fun s hs => htags s (by simp [hs]))
      obtain ⟨t, lit⟩ := seg
      cases t with
      | zero => exact ⟨lit ++ (natDigits idx ++ r), by simp [render_segs, render_seg, hr]⟩
      | succ t =>
          have ht : t < values.length := by
            have := htags (t + 1, lit) (by simp); omega
          obtain ⟨vals, hvals⟩ := get_some_of_lt values t ht
          obtain ⟨o, ho⟩ := get_some_of_lt offs t (by omega)
          have hoD : offs.getD t 0 = o := getD_of_get_some offs t o 0 ho
          have hv : o < vals.length := hoD ▸ hbound t ht vals hvals
          obtain ⟨v, hvv⟩ := get_some_of_lt vals o hv
          exact ⟨lit ++ (v ++ r), by simp [render_segs, render_seg, hvals, ho, hvv, hr]⟩

theorem gen_command_isSome (tpl : List (Nat × List Nat)) (k : Nat)
    (values : List (List (List Nat))) (lens : List Nat)
    (hlens : lens = values.map List.length)
    (htags : ∀ seg ∈ tpl, seg.1 ≤ values.length)
    (htpl : tpl ≠ [])
    (hpos : ∀ s ∈ lens, 1 ≤ s) :
    ∃ c, gen_command tpl k values lens = some c := by
  have hprod : product k lens = some (productT k lens) := product_eq_productT lens k hpos
  have hlenv : lens.length = values.length := by rw [hlens, List.length_map]
  have hlen2 : (productT k lens).length = values.length := by
    rw [productT_length, hlenv]
  have hbound : ∀ t, t < values.length → ∀ vals, values[t]? = some vals →
      (productT k lens).getD t 0 < vals.length := by
    intro t ht vals hvals
    have h2 : t < lens.length := by omega
    have h1 : lens.getD t 1 = vals.length := by
      have hmap : lens[t]? = some vals.length := by
        rw [hlens, List.getElem?_map, hvals]; rfl
      exact getD_of_get_some lens t vals.length 1 hmap
    have := productT_getD_lt lens t k hpos h2
    omega
  obtain ⟨r, hr⟩ := render_segs_isSome k values (productT k lens) tpl.dropLast
    (fun s hs => htags s (mem_of_mem_dropLast hs)) hlen2 hbound
  obtain ⟨last, hl⟩ := getLast_some_of_ne_nil tpl htpl
  exact ⟨r ++ last.2, by simp [gen_command, hprod, hl, hr]⟩

theorem worker_loop_claims (total : Nat) (tpl : List (Nat × List Nat))
    (values : List (List (List Nat))) (lens : List Nat)
    (outcome : Nat → ExecOutcome) (silent : Bool) :
    ∀ fuel c, (∀ i, i ≤ total → (gen_command tpl i values lens).isSome) →
      total + 1 - c ≤ fuel →
      (worker_loop total tpl values lens outcome silent c fuel).map Prod.fst =
        List.range' c (total + 1 - c) := by
  intro fuel
  induction fuel with
  | zero =>
      intro c _ hf
      have hz : total + 1 - c = 0 := by omega
      simp [worker_loop, hz]
  | succ fuel ih =>
      intro c hren hf
      by_cases hc : total < c
      · have hz : total + 1 - c = 0 := by omega
        simp [worker_loop, hc, hz]
      · obtain ⟨cmd, hcmd⟩ := Option.isSome_iff_exists.mp (hren c (by omega))
        have h1 : total + 1 - (c + 1) ≤ fuel := by omega
        have h2 : total + 1 - c = (total - c) + 1 := by omega
        have h3 : total + 1 - (c + 1) = total - c := by omega
        have hrec := ih (c + 1) hren h1
        rw [h3] at hrec
        simp [worker_loop, hc, hcmd, hrec, h2]
        rfl

theorem runClaims_eq_range (total : Nat) :
    ∀ fuel c, total + 1 - c ≤ fuel → c ≤ total + 1 →
      runClaims total c fuel = List.range' c (total + 1 - c) := by
  intro fuel
  induction fuel with
  | zero =>
      intro c _ hf
      have hz : total + 1 - c = 0 := by omega
      simp [runClaims, hz]
  | succ fuel ih =>
      intro c hren hc
      by_cases h : total < c
      · have hz : total + 1 - c = 0 := by omega
        simp [runClaims, claimOp, h, hz]
      · have h1 : total + 1 - (c + 1) ≤ fuel := by omega
        have h2 : total + 1 - c = (total - c) + 1 := by omega
        have h3 : total + 1 - (c + 1) = total - c := by omega
        have hrec := ih (c + 1) h1 (by omega)
        rw [h3] at hrec
        simp [runClaims, claimOp, h, hrec, h2]
        rfl

theorem precompute_go_no_index (idents : List (List Nat)) :
    ∀ fuel rest tmp acc,
      precompute_go [] idents fuel rest tmp acc =
        precompute_spec_go [] idents fuel rest tmp acc := by
  intro fuel
  induction fuel with
  | zero =>
      intro rest tmp acc
      cases rest with
      | nil => rfl
      | cons b bs => rfl
  | succ fuel ih =>
      intro rest tmp acc
      cases rest with
      | nil => rfl
      | cons b bs =>
          simp only [precompute_go, precompute_spec_go, List.isEmpty_nil,
            Bool.not_true, Bool.false_and, Bool.false_eq_true, if_false]
          cases hm : matchWordlist (b :: bs) idents 0 with
          | none =>
              by_cases hb : b < 128
              · simp [hm, hb, ih]
              · simp [hm, hb]
          | some tr => simp [hm, ih]

/-- C1: refuted on the code; the claim states the spec's explicit intent and
the code violates it.  The dispatcher bound check in main compares the
counter with a strict greater-than against total_words, so the index equal
to the total combination count is itself claimed and rendered.  With size 1
(for example a run with no wordlists) the claims are [0, 1] and the worker
loop renders and executes both jobs, not just job 0. -/
theorem dispatcher_claims_one_past_the_end :
    runClaims 1 0 3 = [0, 1] ∧
    (worker_loop 1 [(0, [104, 105])] [] []
        (fun _ => ExecOutcome.ok 0 [] []) false 0 3).map Prod.fst = [0, 1] :=
  ⟨rfl, rfl⟩

/-- C2: for sizes all at least 1 and any index below their product, product
returns offsets with offsets[k] = (i / prod of the first k sizes) mod
sizes[k] (first-declared wordlist varying fastest), each offset below its
size, and the mapping is injective on the index range and onto the
cartesian product of the offset ranges. -/
theorem product_mixed_radix_bijection (sizes : List Nat) (hpos : ∀ s ∈ sizes, 1 ≤ s) :
    (∀ i, i < sizes.prod →
        product i sizes = some (productT i sizes) ∧
        (productT i sizes).length = sizes.length ∧
        (∀ k, k < sizes.length →
          (productT i sizes).getD k 0 = (i / prefixProd sizes k) % sizes.getD k 1 ∧
          (productT i sizes).getD k 0 < sizes.getD k 1)) ∧
    (∀ i j, i < sizes.prod → j < sizes.prod → product i sizes = product j sizes → i = j) ∧
    (∀ offs : List Nat, offs.length = sizes.length →
        (∀ k, k < sizes.length → offs.getD k 0 < sizes.getD k 1) →
        ∃ i, i < sizes.prod ∧ product i sizes = some offs) := by
  refine ⟨?_, ?_, ?_⟩
  · intro i _
    exact ⟨product_eq_productT sizes i hpos, productT_length sizes i,
      fun k hk => ⟨productT_getD sizes k i hk, productT_getD_lt sizes k i hpos hk⟩⟩
  · intro i j hi hj hij
    rw [product_eq_productT sizes i hpos, product_eq_productT sizes j hpos] at hij
    have heq : productT i sizes = productT j sizes := by
      exact Option.some.inj hij
    calc i = encodeMR (productT i sizes) sizes := (encodeMR_productT sizes i hpos hi).symm
      _ = encodeMR (productT j sizes) sizes := by rw [heq]
      _ = j := encodeMR_productT sizes j hpos hj
  · intro offs hlen hlt
    exact ⟨encodeMR offs sizes, encodeMR_lt sizes offs hlen hlt, by
      rw [product_eq_productT sizes _ hpos, productT_encodeMR sizes offs hlen hlt]⟩

/-- Witness for C2 at sizes [2, 3]: the offset tuple (1, 2) is reached from
some index below 6. -/
theorem product_mixed_radix_bijection_witness :
    ∃ i, i < ([2, 3] : List Nat).prod ∧ product i [2, 3] = some [1, 2] :=
  (product_mixed_radix_bijection [2, 3] (by decide)).2.2 [1, 2] (by decide) (by decide)

/-- C3: refuted on the code; the claim matches the source's intended
behaviour and the spec, and the code panics.  Compiling the two-byte UTF-8
command 0xC3 0xA9 (the single character e-acute) with no identifiers
reaches the one-byte slice command[0..1], which is not on a character
boundary, so precompute_template panics instead of returning a segment
list. -/
theorem precompute_template_panics_on_non_ascii :
    precompute_template [195, 169] [] [] = none := rfl

/-- Counterexample for C4: with index-identifier AA and the single wordlist
identifier A, the command AAAA compiles differently from the claimed
at-every-position index-first precedence, because after the index match the
source tests the wordlist identifiers at the advanced position inside the
same iteration, skipping the index test there. -/
theorem index_precedence_counterexample :
    precompute_template [65, 65, 65, 65] [65, 65] [[65]] =
      some [(0, []), (1, []), (1, []), (0, [])] ∧
    precompute_template_spec [65, 65, 65, 65] [65, 65] [[65]] =
      some [(0, []), (0, []), (0, [])] ∧
    precompute_template [65, 65, 65, 65] [65, 65] [[65]] ≠
      precompute_template_spec [65, 65, 65, 65] [65, 65] [[65]] :=
  ⟨rfl, rfl, by decide⟩

/-- C4 amended: when no index-identifier is configured, matching follows
exactly the claimed deterministic registration-order precedence (the code
coincides with the specification's matcher); in particular with foo
registered before foobar, compiling echo foobar matches foo first and
leaves bar as the trailing literal. -/
theorem registration_order_precedence_amended :
    (∀ command idents, precompute_template command [] idents =
        precompute_template_spec command [] idents) ∧
    precompute_template [101, 99, 104, 111, 32, 102, 111, 111, 98, 97, 114] []
        [[102, 111, 111], [102, 111, 111, 98, 97, 114]] =
      some [(1, [101, 99, 104, 111, 32]), (0, [98, 97, 114])] :=
  ⟨fun command idents => precompute_go_no_index idents (command.length + 1) command [] [],
   rfl⟩

/-- C5: wordlist A with values x, y registered first and B with values 1, 2
second, command "echo A-B", no index-identifier: the total is 4 and indices
0..3 render echo x-1, echo y-1, echo x-2, echo y-2 (first-declared wordlist
varies fastest).  All strings appear as their byte lists. -/
theorem example_scenario_total_and_renders :
    precompute_template [101, 99, 104, 111, 32, 65, 45, 66] [] [[65], [66]] =
      some [(1, [101, 99, 104, 111, 32]), (2, [45]), (0, [])] ∧
    ([2, 2] : List Nat).prod = 4 ∧
    gen_command [(1, [101, 99, 104, 111, 32]), (2, [45]), (0, [])] 0
        [[[120], [121]], [[49], [50]]] [2, 2] = some [101, 99, 104, 111, 32, 120, 45, 49] ∧
    gen_command [(1, [101, 99, 104, 111, 32]), (2, [45]), (0, [])] 1
        [[[120], [121]], [[49], [50]]] [2, 2] = some [101, 99, 104, 111, 32, 121, 45, 49] ∧
    gen_command [(1, [101, 99, 104, 111, 32]), (2, [45]), (0, [])] 2
        [[[120], [121]], [[49], [50]]] [2, 2] = some [101, 99, 104, 111, 32, 120, 45, 50] ∧
    gen_command [(1, [101, 99, 104, 111, 32]), (2, [45]), (0, [])] 3
        [[[120], [121]], [[49], [50]]] [2, 2] = some [101, 99, 104, 111, 32, 121, 45, 50] :=
  ⟨rfl, rfl, rfl, rfl, rfl, rfl⟩

/-- C6: refuted on the code; the claim states the spec's and the source's
evident intent (the duplicate-identifier error path) and the code misses
one case.  The clash check compares each previously registered identifier,
never the newly added one, against the index-identifier, so a run whose
sole wordlist identifier X equals the index-identifier X with command
"echo X" passes validation (true means no abort) and proceeds to dispatch. -/
theorem validation_accepts_identifier_equal_to_index :
    validate_files [101, 99, 104, 111, 32, 88] [88] [] [[88]] = true := rfl

/-- C7: whenever dispatch completes (every claimed job renders), main joins
the workers, discards their results, and returns normally with exit status
0, whatever the per-job outcomes are; every claimed index is executed
exactly once, in order, with no retry. -/
theorem failed_jobs_do_not_change_exit_status (total fuel : Nat)
    (tpl : List (Nat × List Nat)) (values : List (List (List Nat))) (lens : List Nat)
    (outcome : Nat → ExecOutcome) (silent : Bool)
    (hren : ∀ i, i ≤ total → (gen_command tpl i values lens).isSome)
    (hfuel : total + 1 ≤ fuel) :
    ∃ jobs, main_model none total tpl values lens outcome silent fuel =
        (MainResult.ran jobs, 0) ∧
      jobs.map Prod.fst = List.range (total + 1) ∧
      (jobs.map Prod.fst).Nodup := by
  have hclaims := worker_loop_claims total tpl values lens outcome silent fuel 0 hren (by omega)
  have hr : List.range' 0 (total + 1 - 0) = List.range (total + 1) := by
    rw [Nat.sub_zero, List.range_eq_range']
  rw [hr] at hclaims
  refine ⟨worker_loop total tpl values lens outcome silent 0 fuel, rfl, hclaims, ?_⟩
  rw [hclaims]
  exact List.nodup_range (total + 1)

/-- Witness for C7: a single-job run whose only command exits with status 1
still yields exit status 0 and executes exactly job 0. -/
theorem failed_jobs_do_not_change_exit_status_witness :
    ∃ jobs, main_model none 0 [(0, [])] [] []
        (fun _ => ExecOutcome.ok 1 [] [97]) false 1 = (MainResult.ran jobs, 0) ∧
      jobs.map Prod.fst = List.range (0 + 1) ∧
      (jobs.map Prod.fst).Nodup :=
  failed_jobs_do_not_change_exit_status 0 1 [(0, [])] [] []
    (fun _ => ExecOutcome.ok 1 [] [97]) false
    (fun i hi => by
      have h0 : i = 0 := by omega
      subst h0
      decide)
    (by omega)

/-- C8: in show mode, a value K below the total combination count makes the
program render and print the command for index K and exit with status 0
without reaching the worker pool, while K at or above the total aborts with
exit status 1 before dispatch. -/
theorem show_mode_behaviour (k fuel : Nat) (tpl : List (Nat × List Nat))
    (values : List (List (List Nat))) (lens : List Nat)
    (outcome : Nat → ExecOutcome) (silent : Bool)
    (hlens : lens = values.map List.length)
    (htags : ∀ seg ∈ tpl, seg.1 ≤ values.length)
    (htpl : tpl ≠ []) :
    (k < lens.prod →
      ∃ c, gen_command tpl k values lens = some c ∧
        main_model (some k) lens.prod tpl values lens outcome silent fuel =
          (MainResult.shown c, 0)) ∧
    (lens.prod ≤ k →
      main_model (some k) lens.prod tpl values lens outcome silent fuel =
        (MainResult.confErr, 1)) := by
  constructor
  · intro hk
    obtain ⟨c, hc⟩ := gen_command_isSome tpl k values lens hlens htags htpl
      (pos_of_lt_prod lens k hk)
    refine ⟨c, hc, ?_⟩
    have hnle : ¬ lens.prod ≤ k := by omega
    simp [main_model, hnle, hc]
  · intro hk
    simp [main_model, hk]

/-- Witness for C8: one wordlist with the single value x, template with one
wordlist placeholder; show index 0 prints x and exits 0, show index 9
aborts with exit status 1. -/
theorem show_mode_behaviour_witness :
    (∃ c, gen_command [(1, []), (0, [])] 0 [[[120]]] [1] = some c ∧
      main_model (some 0) ([1] : List Nat).prod [(1, []), (0, [])] [[[120]]] [1]
        (fun _ => ExecOutcome.ok 0 [] []) false 5 = (MainResult.shown c, 0)) ∧
    main_model (some 9) ([1] : List Nat).prod [(1, []), (0, [])] [[[120]]] [1]
      (fun _ => ExecOutcome.ok 0 [] []) false 5 = (MainResult.confErr, 1) :=
  ⟨(show_mode_behaviour 0 5 [(1, []), (0, [])] [[[120]]] [1]
      (fun _ => ExecOutcome.ok 0 [] []) false rfl (by decide) (by decide)).1 (by decide),
   (show_mode_behaviour 9 5 [(1, []), (0, [])] [[[120]]] [1]
      (fun _ => ExecOutcome.ok 0 [] []) false rfl (by decide) (by decide)).2 (by decide)⟩

/-- C9: product is total exactly on positive sizes, in which case every
offset is below its size; any zero size (an empty wordlist) makes the
modulo and division in product divide by zero, a panic; and with total 0
the worker loop still claims index 0, since the dispatcher bound check is a
strict greater-than. -/
theorem product_totality_and_zero_sizes :
    (∀ sizes nth, (∀ s ∈ sizes, 1 ≤ s) →
        ∃ offs, product nth sizes = some offs ∧ offs.length = sizes.length ∧
          ∀ k, k < sizes.length → offs.getD k 0 < sizes.getD k 1) ∧
    (∀ sizes nth, 0 ∈ sizes → product nth sizes = none) ∧
    runClaims 0 0 2 = [0] := by
  refine ⟨?_, ?_, rfl⟩
  · intro sizes nth h
    exact ⟨productT nth sizes, product_eq_productT sizes nth h, productT_length sizes nth,
      fun k hk => productT_getD_lt sizes k nth h hk⟩
  · intro sizes nth h
    exact product_eq_none_of_zero sizes nth h

/-- Witness for C9: sizes [2, 3] give in-range offsets for index 7, and the
zero size in [2, 0] makes product panic. -/
theorem product_totality_and_zero_sizes_witness :
    (∃ offs, product 7 [2, 3] = some offs ∧ offs.length = ([2, 3] : List Nat).length ∧
      ∀ k, k < ([2, 3] : List Nat).length → offs.getD k 0 < ([2, 3] : List Nat).getD k 1) ∧
    product 7 [2, 0] = none :=
  ⟨product_totality_and_zero_sizes.1 [2, 3] 7 (by decide),
   product_totality_and_zero_sizes.2.1 [2, 0] 7 (by decide)⟩

/-- C10: with the silent flag, a run job emits nothing whether it succeeded
or exited non-zero, while a spawn failure always emits the warning naming
the command and the cause, silent or not. -/
theorem silent_suppression_and_spawn_warning :
    (∀ cmd idx st so se, execute_command cmd idx true (ExecOutcome.ok st so se) = []) ∧
    (∀ cmd idx silent e, execute_command cmd idx silent (ExecOutcome.spawnErr e) =
        [Event.warn cmd e]) := by
  constructor
  · intro cmd idx st so se
    by_cases h : st = 0 <;> simp [execute_command, h]
  · intro cmd idx silent e
    rfl

end Parel
